import Mathlib

/-!
Verification of the faunadb-go value/codec layer (src/faunadb/values.go and
src/faunadb/client.go) against its natural-language specification.

The Go code is shallowly embedded: the `Value` union and its `MarshalJSON`
methods follow values.go; Go's `time.Time.Format` for the two layouts
"2006-01-02" and "2006-01-02T15:04:05.999999999Z" and `encoding/json`'s
map marshaling (keys in sorted order, compact output) are modelled for the
character ranges the code uses.  Repository code that is absent from src/
(the wire parser `parseJSON`, the generic decoder behind `newValueDecoder`,
and the `Field` extractor internals) is modelled from the spec; those
definitions carry a `Modelled from the spec:` doc comment.
-/

namespace Fauna

/-! ## Decimal digit machinery

Go renders calendar/clock components with zero-padded fixed-width decimal
fields; fractional seconds under layout ".999999999" are printed to nine
digits with trailing zeros removed (the whole fraction, dot included, is
dropped when zero). -/

/-- Big-endian base-10 digits of `n`, zero-padded to exactly `w` digits
(the value rendered is `n % 10^w`). -/
def digitsBE : Nat → Nat → List Nat
  | 0, _ => []
  | w + 1, n => digitsBE w (n / 10) ++ [n % 10]

/-- Value of a big-endian digit list. -/
def valOfBE (ds : List Nat) : Nat := ds.foldl (fun a d => 10 * a + d) 0

/-- The ASCII character of a decimal digit. -/
def charOfDigit (d : Nat) : Char := Char.ofNat (48 + d)

/-- Read one ASCII decimal digit. -/
def digitOfChar (c : Char) : Option Nat :=
  if 48 ≤ c.toNat ∧ c.toNat ≤ 57 then some (c.toNat - 48) else none

/-- Strip trailing zero digits from a big-endian digit list. -/
def stripTrailing (ds : List Nat) : List Nat :=
  (ds.reverse.dropWhile (fun d => d = 0)).reverse

theorem digitsBE_length (w n : Nat) : (digitsBE w n).length = w := by
  induction w generalizing n with
  | zero => rfl
  | succ w ih => simp [digitsBE, ih]

theorem digitsBE_mem_lt (w n : Nat) : ∀ d ∈ digitsBE w n, d < 10 := by
  induction w generalizing n with
  | zero => intro d hd; simp [digitsBE] at hd
  | succ w ih =>
    intro d hd
    simp only [digitsBE, List.mem_append, List.mem_singleton] at hd
    rcases hd with hd | hd
    · exact ih _ d hd
    · subst hd; exact Nat.mod_lt _ (by omega)

theorem valOfBE_append_singleton (ds : List Nat) (d : Nat) :
    valOfBE (ds ++ [d]) = 10 * valOfBE ds + d := by
  simp [valOfBE, List.foldl_append]

theorem valOfBE_digitsBE (w n : Nat) (h : n < 10 ^ w) :
    valOfBE (digitsBE w n) = n := by
  induction w generalizing n with
  | zero => simp [digitsBE, valOfBE]; omega
  | succ w ih =>
    have hdiv : n / 10 < 10 ^ w := by
      have : 10 ^ (w + 1) = 10 ^ w * 10 := by ring
      rw [this] at h
      exact Nat.div_lt_of_lt_mul (by omega)
    rw [digitsBE, valOfBE_append_singleton, ih _ hdiv]
    omega

/-- Core fact about dropped trailing zeros: the stripped digits of a
nonzero `n < 10^w`, rescaled by the number of digits removed, recover `n`;
the stripped list is nonempty and no longer than `w`. -/
theorem stripTrailing_digitsBE (w : Nat) : ∀ n, 0 < n → n < 10 ^ w →
    valOfBE (stripTrailing (digitsBE w n)) *
        10 ^ (w - (stripTrailing (digitsBE w n)).length) = n ∧
      1 ≤ (stripTrailing (digitsBE w n)).length ∧
      (stripTrailing (digitsBE w n)).length ≤ w := by
  induction w with
  | zero => intro n h0 h1; simp at h1; omega
  | succ w ih =>
    intro n h0 h1
    have hsplit : digitsBE (w + 1) n = digitsBE w (n / 10) ++ [n % 10] := rfl
    by_cases hz : n % 10 = 0
    · have hstrip : stripTrailing (digitsBE (w + 1) n) =
          stripTrailing (digitsBE w (n / 10)) := by
        simp [hsplit, stripTrailing, hz]
      have hd0 : 0 < n / 10 := by omega
      have hdlt : n / 10 < 10 ^ w := by
        have : 10 ^ (w + 1) = 10 ^ w * 10 := by ring
        rw [this] at h1
        exact Nat.div_lt_of_lt_mul (by omega)
      obtain ⟨hval, hlen1, hlenw⟩ := ih (n / 10) hd0 hdlt
      rw [hstrip]
      refine ⟨?_, hlen1, by omega⟩
      have hsub : w + 1 - (stripTrailing (digitsBE w (n / 10))).length =
          (w - (stripTrailing (digitsBE w (n / 10))).length) + 1 := by omega
      rw [hsub, pow_succ, ← Nat.mul_assoc, hval]
      omega
    · have hstrip : stripTrailing (digitsBE (w + 1) n) =
          digitsBE w (n / 10) ++ [n % 10] := by
        simp [hsplit, stripTrailing, hz]
      have hdlt : n / 10 < 10 ^ w := by
        have : 10 ^ (w + 1) = 10 ^ w * 10 := by ring
        rw [this] at h1
        exact Nat.div_lt_of_lt_mul (by omega)
      rw [hstrip]
      constructor
      · rw [valOfBE_append_singleton, valOfBE_digitsBE _ _ hdlt]
        have : (digitsBE w (n / 10) ++ [n % 10]).length = w + 1 := by
          simp [digitsBE_length]
        rw [this]
        simp
        omega
      · simp [digitsBE_length]

theorem stripTrailing_mem (ds : List Nat) : ∀ d ∈ stripTrailing ds, d ∈ ds := by
  intro d hd
  simp only [stripTrailing, List.mem_reverse] at hd
  have := List.dropWhile_sublist (l := ds.reverse) (p := fun d => d = 0)
  have hmem := this.subset hd
  simpa using hmem

theorem digitOfChar_charOfDigit (d : Nat) (h : d < 10) :
    digitOfChar (charOfDigit d) = some d := by
  interval_cases d <;> decide

theorem digitOfChar_isSome_charOfDigit (d : Nat) (h : d < 10) :
    (digitOfChar (charOfDigit d)).isSome = true := by
  rw [digitOfChar_charOfDigit d h]; rfl

/-! ## Go `time.Time`, observationally

`DateV` and `TimeV` in values.go are `time.Time`.  A Go `time.Time` holds an
absolute instant plus a location; `Format` renders the wall-clock reading in
that location, and `==` distinguishes times with different locations.  The
model stores the wall-clock fields directly together with the location's
zone offset (`offsetSec`, 0 for UTC). -/

structure GoTime where
  year : Nat
  month : Nat
  day : Nat
  hour : Nat
  minute : Nat
  second : Nat
  nanosec : Nat
  offsetSec : Int
deriving DecidableEq, Repr

/-- Clock fields within the ranges Go's formatter and parser exchange
losslessly (years are four-digit; the Go layouts used by values.go render
years zero-padded to width four). -/
def wfClock (t : GoTime) : Prop :=
  t.year ≤ 9999 ∧ 1 ≤ t.month ∧ t.month ≤ 12 ∧ 1 ≤ t.day ∧ t.day ≤ 31 ∧
    t.hour ≤ 23 ∧ t.minute ≤ 59 ∧ t.second ≤ 59 ∧ t.nanosec < 10 ^ 9

instance (t : GoTime) : Decidable (wfClock t) := by
  unfold wfClock; infer_instance

/-- Fractional-second characters under Go layout ".999999999": nine digits
with trailing zeros removed, the dot removed as well when the fraction is
zero. -/
def fracChars (n : Nat) : List Char :=
  if n = 0 then []
  else '.' :: (stripTrailing (digitsBE 9 n)).map charOfDigit

/-- Characters of Go layout "2006-01-02" applied to `t` (renders the
wall-clock date fields). -/
def dateChars (t : GoTime) : List Char :=
  (digitsBE 4 t.year).map charOfDigit ++
    '-' :: (digitsBE 2 t.month).map charOfDigit ++
    '-' :: (digitsBE 2 t.day).map charOfDigit

/-- Characters of Go layout "2006-01-02T15:04:05.999999999Z" applied to `t`.
The trailing `Z` is a literal in this layout (Go converts nothing to UTC
here; the zone designator layouts are "Z07:00"-style). -/
def tsChars (t : GoTime) : List Char :=
  dateChars t ++
    'T' :: (digitsBE 2 t.hour).map charOfDigit ++
    ':' :: (digitsBE 2 t.minute).map charOfDigit ++
    ':' :: (digitsBE 2 t.second).map charOfDigit ++
    fracChars t.nanosec ++ ['Z']

/-- `time.Time(date).Format("2006-01-02")` from `DateV.MarshalJSON`. -/
def formatDate (t : GoTime) : String := String.mk (dateChars t)

/-- `time.Time(localTime).Format("2006-01-02T15:04:05.999999999Z")` from
`TimeV.MarshalJSON`. -/
def formatTs (t : GoTime) : String := String.mk (tsChars t)

/-! ### Parsing the two layouts back (wire decoding side) -/

/-- Read exactly `k` decimal digits, accumulating their value. -/
def readFixedAux : Nat → Nat → List Char → Option (Nat × List Char)
  | acc, 0, cs => some (acc, cs)
  | acc, k + 1, c :: cs =>
    match digitOfChar c with
    | some d => readFixedAux (10 * acc + d) k cs
    | none => none
  | _, _ + 1, [] => none

def readFixed (k : Nat) (cs : List Char) : Option (Nat × List Char) :=
  readFixedAux 0 k cs

/-- Consume one expected character. -/
def expectChar (c : Char) : List Char → Option (List Char)
  | d :: cs => if d = c then some cs else none
  | [] => none

/-- Read an optional fractional-second field: a dot followed by one to nine
digits yields the nanosecond value; no dot yields zero nanoseconds. -/
def readFrac (cs : List Char) : Option (Nat × List Char) :=
  match cs with
  | '.' :: rest =>
    let ds := rest.takeWhile (fun c => (digitOfChar c).isSome)
    if 1 ≤ ds.length ∧ ds.length ≤ 9 then
      some (valOfBE (ds.filterMap digitOfChar) * 10 ^ (9 - ds.length),
        rest.dropWhile (fun c => (digitOfChar c).isSome))
    else none
  | _ => some (0, cs)

/-- Modelled from the spec: the wire parser (absent from src/) turns an
`"@date"` payload into a calendar date or fails; dates parse as midnight
UTC, as `time.Parse("2006-01-02", s)` produces. -/
def parseDateChars (cs : List Char) : Option GoTime :=
  match readFixed 4 cs with
  | none => none
  | some (y, cs1) =>
    match expectChar '-' cs1 with
    | none => none
    | some cs2 =>
      match readFixed 2 cs2 with
      | none => none
      | some (mo, cs3) =>
        match expectChar '-' cs3 with
        | none => none
        | some cs4 =>
          match readFixed 2 cs4 with
          | none => none
          | some (d, cs5) =>
            if cs5 = [] ∧ 1 ≤ mo ∧ mo ≤ 12 ∧ 1 ≤ d ∧ d ≤ 31 then
              some ⟨y, mo, d, 0, 0, 0, 0, 0⟩
            else none

/-- Modelled from the spec: the wire parser (absent from src/) turns an
`"@ts"` payload into an absolute instant or fails; timestamps parse as UTC
instants (offset 0). -/
def parseTsChars (cs : List Char) : Option GoTime :=
  match readFixed 4 cs with
  | none => none
  | some (y, cs1) =>
    match expectChar '-' cs1 with
    | none => none
    | some cs2 =>
      match readFixed 2 cs2 with
      | none => none
      | some (mo, cs3) =>
        match expectChar '-' cs3 with
        | none => none
        | some cs4 =>
          match readFixed 2 cs4 with
          | none => none
          | some (d, cs5) =>
            match expectChar 'T' cs5 with
            | none => none
            | some cs6 =>
              match readFixed 2 cs6 with
              | none => none
              | some (h, cs7) =>
                match expectChar ':' cs7 with
                | none => none
                | some cs8 =>
                  match readFixed 2 cs8 with
                  | none => none
                  | some (mi, cs9) =>
                    match expectChar ':' cs9 with
                    | none => none
                    | some cs10 =>
                      match readFixed 2 cs10 with
                      | none => none
                      | some (s, cs11) =>
                        match readFrac cs11 with
                        | none => none
                        | some (ns, cs12) =>
                          match expectChar 'Z' cs12 with
                          | none => none
                          | some cs13 =>
                            if cs13 = [] ∧ 1 ≤ mo ∧ mo ≤ 12 ∧ 1 ≤ d ∧ d ≤ 31 ∧
                                h ≤ 23 ∧ mi ≤ 59 ∧ s ≤ 59 then
                              some ⟨y, mo, d, h, mi, s, ns, 0⟩
                            else none

def parseDate (s : String) : Option GoTime := parseDateChars s.data

def parseTs (s : String) : Option GoTime := parseTsChars s.data

/-! ### Format/parse round-trip lemmas -/

theorem readFixedAux_spec (ds : List Nat) :
    ∀ acc rest, (∀ d ∈ ds, d < 10) →
      readFixedAux acc ds.length (ds.map charOfDigit ++ rest) =
        some (ds.foldl (fun a d => 10 * a + d) acc, rest) := by
  induction ds with
  | nil => intro acc rest _; rfl
  | cons d ds ih =>
    intro acc rest hds
    have hd : d < 10 := hds d (by simp)
    simp only [List.map_cons, List.cons_append, List.length_cons, readFixedAux,
      digitOfChar_charOfDigit d hd, List.foldl_cons]
    exact ih _ rest (fun x hx => hds x (by simp [hx]))

theorem readFixed_digitsBE (k n : Nat) (rest : List Char) (h : n < 10 ^ k) :
    readFixed k ((digitsBE k n).map charOfDigit ++ rest) = some (n, rest) := by
  have hlen := digitsBE_length k n
  have := readFixedAux_spec (digitsBE k n) 0 rest (digitsBE_mem_lt k n)
  rw [hlen] at this
  unfold readFixed
  rw [this]
  have : (digitsBE k n).foldl (fun a d => 10 * a + d) 0 = valOfBE (digitsBE k n) := rfl
  rw [this, valOfBE_digitsBE k n h]

theorem expectChar_cons (c : Char) (cs : List Char) :
    expectChar c (c :: cs) = some cs := by
  simp [expectChar]

theorem takeWhile_append_stop {p : Char → Bool} (l1 : List Char) (b : Char)
    (l2 : List Char) (h1 : ∀ a ∈ l1, p a = true) (h2 : p b = false) :
    (l1 ++ b :: l2).takeWhile p = l1 := by
  induction l1 with
  | nil => simp [List.takeWhile, h2]
  | cons a l ih =>
    have ha : p a = true := h1 a (by simp)
    have ih2 := ih (fun x hx => h1 x (by simp [hx]))
    simp [List.takeWhile_cons, ha, ih2]

theorem dropWhile_append_stop {p : Char → Bool} (l1 : List Char) (b : Char)
    (l2 : List Char) (h1 : ∀ a ∈ l1, p a = true) (h2 : p b = false) :
    (l1 ++ b :: l2).dropWhile p = b :: l2 := by
  induction l1 with
  | nil => simp [List.dropWhile, h2]
  | cons a l ih =>
    have ha : p a = true := h1 a (by simp)
    simp only [List.cons_append, List.dropWhile_cons, ha]
    exact ih (fun x hx => h1 x (by simp [hx]))

theorem filterMap_digits (ds : List Nat) (h : ∀ d ∈ ds, d < 10) :
    (ds.map charOfDigit).filterMap digitOfChar = ds := by
  induction ds with
  | nil => rfl
  | cons d ds ih =>
    have hd : d < 10 := h d (by simp)
    simp only [List.map_cons, List.filterMap_cons, digitOfChar_charOfDigit d hd]
    rw [ih (fun x hx => h x (by simp [hx]))]

theorem readFrac_zero (rest : List Char) :
    readFrac ('Z' :: rest) = some (0, 'Z' :: rest) := rfl

theorem readFrac_fracChars (n : Nat) (rest : List Char) (h0 : 0 < n)
    (h9 : n < 10 ^ 9) :
    readFrac (fracChars n ++ 'Z' :: rest) = some (n, 'Z' :: rest) := by
  obtain ⟨hval, hlen1, hlen9⟩ := stripTrailing_digitsBE 9 n h0 h9
  have hmem : ∀ d ∈ stripTrailing (digitsBE 9 n), d < 10 :=
    fun d hd => digitsBE_mem_lt 9 n d (stripTrailing_mem _ d hd)
  have hmemc : ∀ c ∈ (stripTrailing (digitsBE 9 n)).map charOfDigit,
      (digitOfChar c).isSome = true := by
    intro c hc
    simp only [List.mem_map] at hc
    obtain ⟨d, hd, rfl⟩ := hc
    exact digitOfChar_isSome_charOfDigit d (hmem d hd)
  have hz : (digitOfChar 'Z').isSome = false := rfl
  have hne : fracChars n =
      '.' :: (stripTrailing (digitsBE 9 n)).map charOfDigit := by
    simp [fracChars, Nat.pos_iff_ne_zero.mp h0]
  rw [hne]
  simp only [List.cons_append, readFrac,
    takeWhile_append_stop _ 'Z' rest hmemc hz,
    dropWhile_append_stop _ 'Z' rest hmemc hz]
  rw [filterMap_digits _ hmem]
  have hlen : ((stripTrailing (digitsBE 9 n)).map charOfDigit).length =
      (stripTrailing (digitsBE 9 n)).length := by simp
  rw [hlen, if_pos ⟨hlen1, hlen9⟩, hval]

/-- Go's `2006-01-02` format inverts through the spec-modelled date parser,
producing midnight UTC of the rendered wall-clock date. -/
theorem parseDateChars_dateChars (t : GoTime) (h : wfClock t) :
    parseDateChars (dateChars t) = some ⟨t.year, t.month, t.day, 0, 0, 0, 0, 0⟩ := by
  obtain ⟨hy, hmo1, hmo2, hd1, hd2, hh, hmi, hs, hns⟩ := h
  have h1 := readFixed_digitsBE 4 t.year
    ('-' :: ((digitsBE 2 t.month).map charOfDigit ++
      '-' :: (digitsBE 2 t.day).map charOfDigit)) (by omega)
  have h2 := readFixed_digitsBE 2 t.month
    ('-' :: (digitsBE 2 t.day).map charOfDigit) (by omega)
  have h3 := readFixed_digitsBE 2 t.day [] (by omega)
  simp only [dateChars, List.append_assoc, List.cons_append, List.append_nil] at h1 h2 h3 ⊢
  simp only [parseDateChars, h1, expectChar_cons, h2, h3]
  rw [if_pos ⟨trivial, hmo1, hmo2, hd1, hd2⟩]

/-- Go's `2006-01-02T15:04:05.999999999Z` format inverts through the
spec-modelled timestamp parser, producing the rendered wall-clock fields at
offset 0 (UTC) regardless of the original location offset. -/
theorem parseTsChars_tsChars (t : GoTime) (h : wfClock t) :
    parseTsChars (tsChars t) =
      some ⟨t.year, t.month, t.day, t.hour, t.minute, t.second, t.nanosec, 0⟩ := by
  obtain ⟨hy, hmo1, hmo2, hd1, hd2, hh, hmi, hs, hns⟩ := h
  have h1 := readFixed_digitsBE 4 t.year
    ('-' :: ((digitsBE 2 t.month).map charOfDigit ++
      '-' :: ((digitsBE 2 t.day).map charOfDigit ++
      'T' :: ((digitsBE 2 t.hour).map charOfDigit ++
      ':' :: ((digitsBE 2 t.minute).map charOfDigit ++
      ':' :: ((digitsBE 2 t.second).map charOfDigit ++
      (fracChars t.nanosec ++ ['Z']))))))) (by omega)
  have h2 := readFixed_digitsBE 2 t.month
    ('-' :: ((digitsBE 2 t.day).map charOfDigit ++
      'T' :: ((digitsBE 2 t.hour).map charOfDigit ++
      ':' :: ((digitsBE 2 t.minute).map charOfDigit ++
      ':' :: ((digitsBE 2 t.second).map charOfDigit ++
      (fracChars t.nanosec ++ ['Z'])))))) (by omega)
  have h3 := readFixed_digitsBE 2 t.day
    ('T' :: ((digitsBE 2 t.hour).map charOfDigit ++
      ':' :: ((digitsBE 2 t.minute).map charOfDigit ++
      ':' :: ((digitsBE 2 t.second).map charOfDigit ++
      (fracChars t.nanosec ++ ['Z']))))) (by omega)
  have h4 := readFixed_digitsBE 2 t.hour
    (':' :: ((digitsBE 2 t.minute).map charOfDigit ++
      ':' :: ((digitsBE 2 t.second).map charOfDigit ++
      (fracChars t.nanosec ++ ['Z'])))) (by omega)
  have h5 := readFixed_digitsBE 2 t.minute
    (':' :: ((digitsBE 2 t.second).map charOfDigit ++
      (fracChars t.nanosec ++ ['Z']))) (by omega)
  have h6 := readFixed_digitsBE 2 t.second
    (fracChars t.nanosec ++ ['Z']) (by omega)
  have h7 : readFrac (fracChars t.nanosec ++ ['Z']) = some (t.nanosec, ['Z']) := by
    by_cases h0 : t.nanosec = 0
    · rw [h0]
      simp only [fracChars, if_pos rfl, List.nil_append]
      exact readFrac_zero []
    · exact readFrac_fracChars t.nanosec [] (by omega) hns
  simp only [tsChars, dateChars, List.append_assoc, List.cons_append,
    List.append_nil] at h1 h2 h3 h4 h5 h6 h7 ⊢
  simp only [parseTsChars, h1, expectChar_cons, h2, h3, h4, h5, h6, h7]
  rw [if_pos ⟨trivial, hmo1, hmo2, hd1, hd2, hh, hmi, hs⟩]

theorem parseTs_formatTs (t : GoTime) (h : wfClock t) :
    parseTs (formatTs t) =
      some ⟨t.year, t.month, t.day, t.hour, t.minute, t.second, t.nanosec, 0⟩ :=
  parseTsChars_tsChars t h

theorem parseDate_formatDate (t : GoTime) (h : wfClock t) :
    parseDate (formatDate t) = some ⟨t.year, t.month, t.day, 0, 0, 0, 0, 0⟩ :=
  parseDateChars_dateChars t h

/-! ## Go `float64`, observationally

`DoubleV` is `float64`.  Finite floats are modelled by their shortest
decimal representation `mant * 10^-frac` in canonical form (no trailing
zero in the fraction), which is the decimal Go's `encoding/json` prints and
parses for them in the non-exponent range. -/

def FloatCanon (p : Int × Nat) : Prop := p.2 = 0 ∨ p.1 % 10 ≠ 0

instance : DecidablePred FloatCanon := fun p => by
  unfold FloatCanon; infer_instance

def GoFloat : Type := { p : Int × Nat // FloatCanon p }

instance : DecidableEq GoFloat := fun a b =>
  decidable_of_iff (a.val = b.val) Subtype.ext_iff.symm

def GoFloat.mant (f : GoFloat) : Int := f.val.1

def GoFloat.frac (f : GoFloat) : Nat := f.val.2

/-- Strip trailing zeros from a decimal literal's fraction, yielding the
canonical decimal of its value. -/
def canonPair : Int → Nat → Int × Nat
  | m, 0 => (m, 0)
  | m, f + 1 => if m % 10 = 0 then canonPair (m / 10) f else (m, f + 1)

theorem canonPair_canon (f : Nat) : ∀ m, FloatCanon (canonPair m f) := by
  induction f with
  | zero => intro m; exact Or.inl rfl
  | succ f ih =>
    intro m
    by_cases h : m % 10 = 0
    · simpa [canonPair, h] using ih (m / 10)
    · simp [canonPair, h, FloatCanon]

def canonFloat (m : Int) (f : Nat) : GoFloat := ⟨canonPair m f, canonPair_canon f m⟩

def intFloat (n : Int) : GoFloat := ⟨(n, 0), Or.inl rfl⟩

theorem canonFloat_fix (d : GoFloat) : canonFloat d.mant d.frac = d := by
  obtain ⟨⟨m, f⟩, hc⟩ := d
  apply Subtype.ext
  rcases hc with hc | hc
  · simp only [GoFloat.mant, GoFloat.frac] at hc ⊢
    subst hc; rfl
  · simp only [GoFloat.mant, GoFloat.frac] at hc ⊢
    cases f with
    | zero => rfl
    | succ f => simp [canonFloat, canonPair, hc]

/-! ## The Value union (values.go)

One constructor per Go type implementing `Value`.  Go's `map[string]Value`
(in `SetRefV.Parameters` and `ObjectV`) is an unordered map with unique
keys; it is modelled as an association list, whose order stands for one
iteration order of the map. -/

inductive Value where
  | StringV (s : String)
  | LongV (n : Int)
  | DoubleV (d : GoFloat)
  | BooleanV (b : Bool)
  | DateV (t : GoTime)
  | TimeV (t : GoTime)
  | RefV (id : String)
  | SetRefV (parameters : List (String × Value))
  | ObjectV (entries : List (String × Value))
  | ArrayV (elems : List Value)
  | NullV

/-- The JSON document tree: the "intermediate generic form" the wire codec
writes and the parser reads.  A number node keeps its decimal literal
(`mant` scaled by `10^-fracDigits`) since the wire distinguishes `3` from
`3.0`. -/
inductive Json where
  | str (s : String)
  | num (mant : Int) (fracDigits : Nat)
  | bool (b : Bool)
  | null
  | arr (elems : List Json)
  | obj (entries : List (String × Json))

/-- Lexicographic comparison of character lists by codepoint — for UTF-8
encoded strings this is exactly the byte order `sort.Strings` uses. -/
def charListLe : List Char → List Char → Bool
  | [], _ => true
  | _ :: _, [] => false
  | a :: as, b :: bs =>
    if a.toNat < b.toNat then true
    else if b.toNat < a.toNat then false
    else charListLe as bs

theorem charListLe_total : ∀ as bs, charListLe as bs = true ∨ charListLe bs as = true := by
  intro as
  induction as with
  | nil => intro bs; exact Or.inl rfl
  | cons a as ih =>
    intro bs
    cases bs with
    | nil => exact Or.inr rfl
    | cons b bs =>
      by_cases h1 : a.toNat < b.toNat
      · left; simp [charListLe, h1]
      · by_cases h2 : b.toNat < a.toNat
        · right; simp [charListLe, h1, h2]
        · rcases ih bs with h | h
          · left; simp [charListLe, h1, h2, h]
          · right; simp [charListLe, h1, h2, h]

theorem charListLe_trans : ∀ as bs cs, charListLe as bs = true →
    charListLe bs cs = true → charListLe as cs = true := by
  intro as
  induction as with
  | nil => intro bs cs _ _; rfl
  | cons a as ih =>
    intro bs cs hab hbc
    cases bs with
    | nil => simp [charListLe] at hab
    | cons b bs =>
      cases cs with
      | nil => simp [charListLe] at hbc
      | cons c cs =>
        by_cases hab1 : a.toNat < b.toNat <;> by_cases hbc1 : b.toNat < c.toNat
        · simp [charListLe]; omega
        · by_cases hcb : c.toNat < b.toNat
          · simp [charListLe, hbc1, hcb] at hbc
          · have hbceq : b.toNat = c.toNat := by omega
            simp [charListLe]; omega
        · by_cases hba : b.toNat < a.toNat
          · simp [charListLe, hab1, hba] at hab
          · have habeq : a.toNat = b.toNat := by omega
            simp [charListLe]; omega
        · by_cases hba : b.toNat < a.toNat
          · simp [charListLe, hab1, hba] at hab
          · by_cases hcb : c.toNat < b.toNat
            · simp [charListLe, hbc1, hcb] at hbc
            · simp only [charListLe, if_neg hab1, if_neg hba] at hab
              simp only [charListLe, if_neg hbc1, if_neg hcb] at hbc
              have hac1 : ¬ a.toNat < c.toNat := by omega
              have hca : ¬ c.toNat < a.toNat := by omega
              simp only [charListLe, if_neg hac1, if_neg hca]
              exact ih bs cs hab hbc

/-- Key order used by Go's `encoding/json` when serializing a map: keys in
increasing byte order. -/
def keyLe {α : Type} (a b : String × α) : Prop :=
  charListLe a.1.data b.1.data = true

instance {α : Type} : DecidableRel (keyLe (α := α)) := fun _ _ =>
  inferInstanceAs (Decidable (_ = true))

def sortEntries {α : Type} (l : List (String × α)) : List (String × α) :=
  List.insertionSort keyLe l

/-! ## Encoding: Value → JSON document (the MarshalJSON methods)

`escape(key, value)` in values.go is `json.Marshal(map[string]interface{}{key:
value})`: a single-key JSON object.  `json.Marshal` of any Go map emits its
keys in sorted order, hence `sortEntries` at the map-valued payloads. -/

mutual

def valueToJson : Value → Json
  | .StringV s => .str s
  | .LongV n => .num n 0
  | .DoubleV d => .num d.mant d.frac
  | .BooleanV b => .bool b
  | .DateV t => .obj [("@date", .str (formatDate t))]
  | .TimeV t => .obj [("@ts", .str (formatTs t))]
  | .RefV id => .obj [("@ref", .str id)]
  | .SetRefV l => .obj [("@set", .obj (sortEntries (entriesToJson l)))]
  | .ObjectV l => .obj [("object", .obj (sortEntries (entriesToJson l)))]
  | .ArrayV l => .arr (elemsToJson l)
  | .NullV => .null
termination_by structural v => v

def entriesToJson : List (String × Value) → List (String × Json)
  | [] => []
  | (k, v) :: es => (k, valueToJson v) :: entriesToJson es
termination_by structural l => l

def elemsToJson : List Value → List Json
  | [] => []
  | v :: vs => valueToJson v :: elemsToJson vs
termination_by structural l => l

end

mutual

/-- Recursively put every map's association list into the sorted-key order;
two association lists denote the same Go map (same content, different
iteration order) exactly when they normalize identically. -/
def normalizeValue : Value → Value
  | .StringV s => .StringV s
  | .LongV n => .LongV n
  | .DoubleV d => .DoubleV d
  | .BooleanV b => .BooleanV b
  | .DateV t => .DateV t
  | .TimeV t => .TimeV t
  | .RefV id => .RefV id
  | .SetRefV l => .SetRefV (sortEntries (normalizeEntries l))
  | .ObjectV l => .ObjectV (sortEntries (normalizeEntries l))
  | .ArrayV l => .ArrayV (normalizeElems l)
  | .NullV => .NullV
termination_by structural v => v

def normalizeEntries : List (String × Value) → List (String × Value)
  | [] => []
  | (k, v) :: es => (k, normalizeValue v) :: normalizeEntries es
termination_by structural l => l

def normalizeElems : List Value → List Value
  | [] => []
  | v :: vs => normalizeValue v :: normalizeElems vs
termination_by structural l => l

end

/-! ## Rendering a JSON document to bytes (compact, as `json.Marshal`) -/

/-- Decimal digits of `n` without leading zeros (width-capped at 20 digits,
which covers every `int64` and every `float64` shortest-decimal mantissa
the Go code can produce). -/
def natChars (n : Nat) : List Char :=
  let ds := (digitsBE 20 n).dropWhile (fun d => d = 0)
  if ds.isEmpty then ['0'] else ds.map charOfDigit

def intChars (m : Int) : List Char :=
  if m < 0 then '-' :: natChars m.natAbs else natChars m.natAbs

/-- Decimal literal characters for a number node. -/
def numChars (m : Int) (f : Nat) : List Char :=
  if f = 0 then intChars m
  else
    (if m < 0 then ['-'] else []) ++ natChars (m.natAbs / 10 ^ f) ++
      '.' :: (digitsBE f (m.natAbs % 10 ^ f)).map charOfDigit

def hexChar (d : Nat) : Char :=
  if d < 10 then charOfDigit d else Char.ofNat (87 + d)

/-- Go `encoding/json` string escaping with its default HTML escaping:
quote, backslash, newline, carriage return, tab, the HTML-relevant
characters and other control characters are escaped; everything else is
copied. -/
def escapeChar (c : Char) : List Char :=
  if c = '"' then ['\\', '"']
  else if c = '\\' then ['\\', '\\']
  else if c = '\n' then ['\\', 'n']
  else if c = '\r' then ['\\', 'r']
  else if c = '\t' then ['\\', 't']
  else if c = '<' then ['\\', 'u', '0', '0', '3', 'c']
  else if c = '>' then ['\\', 'u', '0', '0', '3', 'e']
  else if c = '&' then ['\\', 'u', '0', '0', '2', '6']
  else if c.toNat < 32 then
    ['\\', 'u', '0', '0', hexChar (c.toNat / 16), hexChar (c.toNat % 16)]
  else if c.toNat = 0x2028 then ['\\', 'u', '2', '0', '2', '8']
  else if c.toNat = 0x2029 then ['\\', 'u', '2', '0', '2', '9']
  else [c]

def quoteChars (s : String) : List Char :=
  '"' :: (s.data.map escapeChar).flatten ++ ['"']

def joinComma : List (List Char) → List Char
  | [] => []
  | [x] => x
  | x :: xs => x ++ ',' :: joinComma xs

mutual

def renderJson : Json → List Char
  | .str s => quoteChars s
  | .num m f => numChars m f
  | .bool true => ['t', 'r', 'u', 'e']
  | .bool false => ['f', 'a', 'l', 's', 'e']
  | .null => ['n', 'u', 'l', 'l']
  | .arr l => '[' :: joinComma (renderElems l) ++ [']']
  | .obj l => '\x7b' :: joinComma (renderEntries l) ++ ['\x7d']
termination_by structural j => j

def renderElems : List Json → List (List Char)
  | [] => []
  | j :: js => renderJson j :: renderElems js
termination_by structural l => l

def renderEntries : List (String × Json) → List (List Char)
  | [] => []
  | (k, j) :: es => (quoteChars k ++ ':' :: renderJson j) :: renderEntries es
termination_by structural l => l

end

/-- `json.Marshal` on a `Value` (values.go dispatches through the
`MarshalJSON` methods). -/
def marshalValue (v : Value) : String := String.mk (renderJson (valueToJson v))

/-! ## Wire decoding: JSON document → Value

The repository's `parseJSON` internals are not under src/; decoding is
modelled from the spec (section 4.2): classify each node by structural
shape; a single-key object with a reserved tag becomes the typed variant
(failing descriptively on a malformed payload), a single-key `"object"`
object unwraps to an Object variant, any other object is an Object
variant (permissive path), and scalars become their matching variant — an
integer literal the Integer variant, any other number the Double variant. -/

inductive WireError where
  | badTagPayload (tag : String)
deriving DecidableEq, Repr

mutual

/-- Modelled from the spec: wire-decoding classification of a parsed JSON
document (`parseJSON` is absent from src/). -/
def decodeJson : Json → Except WireError Value
  | .str s => .ok (.StringV s)
  | .num m f => if f = 0 then .ok (.LongV m) else .ok (.DoubleV (canonFloat m f))
  | .bool b => .ok (.BooleanV b)
  | .null => .ok .NullV
  | .arr l =>
    match decodeJsonElems l with
    | .ok vs => .ok (.ArrayV vs)
    | .error e => .error e
  | .obj [(k, payload)] =>
    if k = "@date" then
      match payload with
      | .str s =>
        match parseDate s with
        | some t => .ok (.DateV t)
        | none => .error (.badTagPayload "@date")
      | _ => .error (.badTagPayload "@date")
    else if k = "@ts" then
      match payload with
      | .str s =>
        match parseTs s with
        | some t => .ok (.TimeV t)
        | none => .error (.badTagPayload "@ts")
      | _ => .error (.badTagPayload "@ts")
    else if k = "@ref" then
      match payload with
      | .str s => .ok (.RefV s)
      | _ => .error (.badTagPayload "@ref")
    else if k = "@set" then
      match payload with
      | .obj inner =>
        match decodeJsonEntries inner with
        | .ok es => .ok (.SetRefV es)
        | .error e => .error e
      | _ => .error (.badTagPayload "@set")
    else if k = "object" then
      match payload with
      | .obj inner =>
        match decodeJsonEntries inner with
        | .ok es => .ok (.ObjectV es)
        | .error e => .error e
      | _ => .error (.badTagPayload "object")
    else
      match decodeJson payload with
      | .ok v => .ok (.ObjectV [(k, v)])
      | .error e => .error e
  | .obj l =>
    match decodeJsonEntries l with
    | .ok es => .ok (.ObjectV es)
    | .error e => .error e

/-- Modelled from the spec: recursive decoding of an object node's entries
(part of the absent parseJSON); the first failure aborts. -/
def decodeJsonEntries : List (String × Json) → Except WireError (List (String × Value))
  | [] => .ok []
  | (k, j) :: es =>
    match decodeJson j with
    | .error e => .error e
    | .ok v =>
      match decodeJsonEntries es with
      | .error e => .error e
      | .ok vs => .ok ((k, v) :: vs)

/-- Modelled from the spec: recursive decoding of an array node's elements
(part of the absent parseJSON); the first failure aborts. -/
def decodeJsonElems : List Json → Except WireError (List Value)
  | [] => .ok []
  | j :: js =>
    match decodeJson j with
    | .error e => .error e
    | .ok v =>
      match decodeJsonElems js with
      | .error e => .error e
      | .ok vs => .ok (v :: vs)

end

/-! ## Generic decoder: Value → caller-requested native shape

`newValueDecoder(i).assign/decodeMap/decodeArray` is absent from src/;
modelled from the spec (section 4.3) over the enumerable destination
descriptors the spec's design notes call for.  The one rule taken directly
from src is Null: `NullV.Get` returns nil without ever writing to the
destination (values.go line 151). -/

inductive Shape where
  | sString
  | sLong
  | sDouble
  | sBool
  | sTime
  | sRef
  | sSeq (elem : Shape)
  | sMap (elem : Shape)
deriving DecidableEq, Repr

inductive Native where
  | nString (s : String)
  | nLong (n : Int)
  | nDouble (d : GoFloat)
  | nBool (b : Bool)
  | nTime (t : GoTime)
  | nRef (id : String)
  | nSeq (elems : List Native)
  | nMap (entries : List (String × Native))

inductive DecodeError where
  | typeMismatch (requested : String) (actual : String)
  | precisionLoss
deriving DecidableEq, Repr

def shapeName : Shape → String
  | .sString => "string"
  | .sLong => "int64"
  | .sDouble => "float64"
  | .sBool => "bool"
  | .sTime => "time.Time"
  | .sRef => "RefV"
  | .sSeq _ => "slice"
  | .sMap _ => "map"

def variantName : Value → String
  | .StringV _ => "StringV"
  | .LongV _ => "LongV"
  | .DoubleV _ => "DoubleV"
  | .BooleanV _ => "BooleanV"
  | .DateV _ => "DateV"
  | .TimeV _ => "TimeV"
  | .RefV _ => "RefV"
  | .SetRefV _ => "SetRefV"
  | .ObjectV _ => "ObjectV"
  | .ArrayV _ => "ArrayV"
  | .NullV => "NullV"

/-- The zero value of each native destination shape (what a fresh Go
variable of that type holds: empty string, 0, false, the zero `time.Time`
— January 1 of year 1, 00:00:00 UTC — nil slice, nil map). -/
def zeroOf : Shape → Native
  | .sString => .nString ""
  | .sLong => .nLong 0
  | .sDouble => .nDouble (intFloat 0)
  | .sBool => .nBool false
  | .sTime => .nTime ⟨1, 1, 1, 0, 0, 0, 0, 0⟩
  | .sRef => .nRef ""
  | .sSeq _ => .nSeq []
  | .sMap _ => .nMap []

mutual

/-- Modelled from the spec: `Get` — decode a Value into a caller-supplied
destination of shape `sh` currently holding `dest`; returns the
destination's new contents, or a DecodeError leaving the destination
untouched.  The `NullV` rule is src code: `NullV.Get` returns nil without
writing. -/
def decodeNative : Value → Shape → Native → Except DecodeError Native
  | .NullV, _, dest => .ok dest
  | .StringV s, .sString, _ => .ok (.nString s)
  | .LongV n, .sLong, _ => .ok (.nLong n)
  | .LongV n, .sDouble, _ => .ok (.nDouble (intFloat n))
  | .DoubleV d, .sDouble, _ => .ok (.nDouble d)
  | .DoubleV d, .sLong, _ =>
    if d.frac = 0 then .ok (.nLong d.mant) else .error .precisionLoss
  | .BooleanV b, .sBool, _ => .ok (.nBool b)
  | .TimeV t, .sTime, _ => .ok (.nTime t)
  | .DateV t, .sTime, _ => .ok (.nTime t)
  | .RefV id, .sRef, _ => .ok (.nRef id)
  | .ArrayV l, .sSeq sh, _ =>
    match decodeNativeElems l sh with
    | .ok ns => .ok (.nSeq ns)
    | .error e => .error e
  | .ObjectV l, .sMap sh, _ =>
    match decodeNativeEntries l sh with
    | .ok ns => .ok (.nMap ns)
    | .error e => .error e
  | v, sh, _ => .error (.typeMismatch (shapeName sh) (variantName v))
termination_by structural v => v

/-- Modelled from the spec: decodeArray (absent from src/) — each element
decodes into a fresh zero destination; the first failure aborts the whole
sequence, committing nothing. -/
def decodeNativeElems : List Value → Shape → Except DecodeError (List Native)
  | [], _ => .ok []
  | v :: vs, sh =>
    match decodeNative v sh (zeroOf sh) with
    | .error e => .error e
    | .ok n =>
      match decodeNativeElems vs sh with
      | .error e => .error e
      | .ok ns => .ok (n :: ns)
termination_by structural l => l

/-- Modelled from the spec: decodeMap (absent from src/) — each entry's
value decodes into a fresh zero destination; the first failure aborts the
whole mapping, committing nothing. -/
def decodeNativeEntries :
    List (String × Value) → Shape → Except DecodeError (List (String × Native))
  | [], _ => .ok []
  | (k, v) :: es, sh =>
    match decodeNative v sh (zeroOf sh) with
    | .error e => .error e
    | .ok n =>
      match decodeNativeEntries es sh with
      | .error e => .error e
      | .ok ns => .ok ((k, n) :: ns)
termination_by structural l => l

end

/-! ## Field extraction (the At methods)

`Field` internals are absent from src/; modelled from the spec: a field
path is an ordered list of by-key / by-index steps (paths produced by
`ObjKey`/`AtIndex` have at least one step); containers look the step up,
every other variant answers "not transversable" — exactly what the At
methods of values.go dispatch to. -/

inductive FieldStep where
  | objKey (k : String)
  | atIndex (i : Nat)
deriving DecidableEq, Repr

inductive TraversalError where
  | notTransversable
  | missingKey (k : String)
  | outOfRange (i : Nat)
deriving DecidableEq, Repr

def lookupKey (k : String) : List (String × Value) → Option Value
  | [] => none
  | (k', v) :: es => if k' = k then some v else lookupKey k es

/-- Modelled from the spec: one traversal step. -/
def atStep (v : Value) (s : FieldStep) : Except TraversalError Value :=
  match v, s with
  | .ObjectV l, .objKey k =>
    match lookupKey k l with
    | some w => .ok w
    | none => .error (.missingKey k)
  | .ArrayV l, .atIndex i =>
    match l.get? i with
    | some w => .ok w
    | none => .error (.outOfRange i)
  | _, _ => .error .notTransversable

/-- Modelled from the spec: `value.At(field)` walks the path's steps. -/
def atPath (v : Value) : List FieldStep → Except TraversalError Value
  | [] => .ok v
  | s :: rest =>
    match atStep v s with
    | .ok w => atPath w rest
    | .error e => .error e

/-! ## parseResponse (client.go) -/

inductive QueryError where
  | wire (e : WireError)
  | traversal (e : TraversalError)
deriving DecidableEq, Repr

/-- `FaunaClient.parseResponse`: parse the response body, then take the
value at field `resource = ObjKey("resource")`.  Parsing the raw bytes into
the document tree is the stdlib collaborator; this starts from the parsed
document. -/
def parseResponse (body : Json) : Except QueryError Value :=
  match decodeJson body with
  | .error e => .error (.wire e)
  | .ok v =>
    match atPath v [.objKey "resource"] with
    | .ok w => .ok w
    | .error e => .error (.traversal e)

/-! ## Lemmas about entry sorting and the mutual recursions -/

instance {α : Type} : IsTotal (String × α) keyLe :=
  ⟨fun a b => charListLe_total a.1.data b.1.data⟩

instance {α : Type} : IsTrans (String × α) keyLe :=
  ⟨fun _ _ _ h1 h2 => charListLe_trans _ _ _ h1 h2⟩

theorem sortEntries_sorted {α : Type} (l : List (String × α)) :
    List.Sorted keyLe (sortEntries l) :=
  List.sorted_insertionSort keyLe l

theorem sortEntries_perm {α : Type} (l : List (String × α)) :
    List.Perm (sortEntries l) l :=
  List.perm_insertionSort keyLe l

theorem sortEntries_idem {α : Type} (l : List (String × α)) :
    sortEntries (sortEntries l) = sortEntries l :=
  (sortEntries_sorted l).insertionSort_eq

theorem sortEntries_map {α β : Type} (f : α → β) (l : List (String × α)) :
    sortEntries (l.map (fun e => (e.1, f e.2))) =
      (sortEntries l).map (fun e => (e.1, f e.2)) :=
  (List.map_insertionSort keyLe keyLe (fun e => (e.1, f e.2)) l
    (fun _ _ _ _ => Iff.rfl)).symm

theorem entriesToJson_eq (l : List (String × Value)) :
    entriesToJson l = l.map (fun e => (e.1, valueToJson e.2)) := by
  induction l with
  | nil => rfl
  | cons e es ih => obtain ⟨k, v⟩ := e; simp [entriesToJson, ih]

theorem elemsToJson_eq (l : List Value) : elemsToJson l = l.map valueToJson := by
  induction l with
  | nil => rfl
  | cons v vs ih => simp [elemsToJson, ih]

theorem normalizeEntries_eq (l : List (String × Value)) :
    normalizeEntries l = l.map (fun e => (e.1, normalizeValue e.2)) := by
  induction l with
  | nil => rfl
  | cons e es ih => obtain ⟨k, v⟩ := e; simp [normalizeEntries, ih]

theorem normalizeElems_eq (l : List Value) :
    normalizeElems l = l.map normalizeValue := by
  induction l with
  | nil => rfl
  | cons v vs ih => simp [normalizeElems, ih]

mutual

/-- The round-trippable fragment of `Value`: Doubles carry a fractional
component (an integral float64 serializes as an integer literal and so
decodes as the Integer variant), Times are UTC-normalized with in-range
clock fields, Dates are midnights of UTC (what the date parser produces),
and every nested value satisfies the same. -/
def wfRT : Value → Bool
  | .StringV _ => true
  | .LongV _ => true
  | .DoubleV d => decide (d.frac ≠ 0)
  | .BooleanV _ => true
  | .DateV t =>
    decide (wfClock t) && decide (t.hour = 0) && decide (t.minute = 0) &&
      decide (t.second = 0) && decide (t.nanosec = 0) && decide (t.offsetSec = 0)
  | .TimeV t => decide (wfClock t) && decide (t.offsetSec = 0)
  | .RefV _ => true
  | .SetRefV l => wfRTEntries l
  | .ObjectV l => wfRTEntries l
  | .ArrayV l => wfRTElems l
  | .NullV => true
termination_by structural v => v

def wfRTEntries : List (String × Value) → Bool
  | [] => true
  | (_, v) :: es => wfRT v && wfRTEntries es
termination_by structural l => l

def wfRTElems : List Value → Bool
  | [] => true
  | v :: vs => wfRT v && wfRTElems vs
termination_by structural l => l

end

theorem wfRTEntries_iff (l : List (String × Value)) :
    wfRTEntries l = true ↔ ∀ e ∈ l, wfRT e.2 = true := by
  induction l with
  | nil => simp [wfRTEntries]
  | cons e es ih =>
    obtain ⟨k, v⟩ := e
    simp [wfRTEntries, ih]

theorem wfRTElems_iff (l : List Value) :
    wfRTElems l = true ↔ ∀ v ∈ l, wfRT v = true := by
  induction l with
  | nil => simp [wfRTElems]
  | cons v vs ih => simp [wfRTElems, ih]

theorem Value.one_le_sizeOf (v : Value) : 1 ≤ sizeOf v := by
  cases v <;> simp

/-- Structural induction over the nested `Value` type, with the member
hypotheses the container cases need. -/
theorem Value.indOn {P : Value → Prop}
    (hstr : ∀ s, P (.StringV s)) (hlong : ∀ n, P (.LongV n))
    (hdouble : ∀ d, P (.DoubleV d)) (hbool : ∀ b, P (.BooleanV b))
    (hdate : ∀ t, P (.DateV t)) (htime : ∀ t, P (.TimeV t))
    (href : ∀ id, P (.RefV id))
    (hset : ∀ l, (∀ e ∈ l, P e.2) → P (.SetRefV l))
    (hobj : ∀ l, (∀ e ∈ l, P e.2) → P (.ObjectV l))
    (harr : ∀ l, (∀ v ∈ l, P v) → P (.ArrayV l))
    (hnull : P .NullV) : ∀ v, P v := by
  have key : ∀ n v, sizeOf v ≤ n → P v := by
    intro n
    induction n with
    | zero =>
      intro v hv
      exact absurd (Value.one_le_sizeOf v) (by omega)
    | succ n ih =>
      intro v hv
      cases v with
      | StringV s => exact hstr s
      | LongV m => exact hlong m
      | DoubleV d => exact hdouble d
      | BooleanV b => exact hbool b
      | DateV t => exact hdate t
      | TimeV t => exact htime t
      | RefV id => exact href id
      | NullV => exact hnull
      | SetRefV l =>
        rw [Value.SetRefV.sizeOf_spec] at hv
        refine hset l (fun e he => ih e.2 ?_)
        have h1 := List.sizeOf_lt_of_mem he
        have h2 : sizeOf e = 1 + sizeOf e.1 + sizeOf e.2 := by
          obtain ⟨k, w⟩ := e; simp
        omega
      | ObjectV l =>
        rw [Value.ObjectV.sizeOf_spec] at hv
        refine hobj l (fun e he => ih e.2 ?_)
        have h1 := List.sizeOf_lt_of_mem he
        have h2 : sizeOf e = 1 + sizeOf e.1 + sizeOf e.2 := by
          obtain ⟨k, w⟩ := e; simp
        omega
      | ArrayV l =>
        rw [Value.ArrayV.sizeOf_spec] at hv
        refine harr l (fun w hw => ih w ?_)
        have h1 := List.sizeOf_lt_of_mem hw
        omega
  exact fun v => key (sizeOf v) v (le_refl _)

/-! ## Encode/decode round trip -/

theorem decodeJsonEntries_pointwise (l : List (String × Value))
    (h : ∀ e ∈ l, decodeJson (valueToJson e.2) = .ok (normalizeValue e.2)) :
    decodeJsonEntries (l.map (fun e => (e.1, valueToJson e.2))) =
      .ok (l.map (fun e => (e.1, normalizeValue e.2))) := by
  induction l with
  | nil => simp [decodeJsonEntries]
  | cons e es ih =>
    obtain ⟨k, v⟩ := e
    have h1 : decodeJson (valueToJson v) = .ok (normalizeValue v) := h (k, v) (by simp)
    have h2 := ih (fun e he => h e (by simp [he]))
    simp only [List.map_cons, decodeJsonEntries, h1, h2]

theorem decodeJsonElems_pointwise (l : List Value)
    (h : ∀ v ∈ l, decodeJson (valueToJson v) = .ok (normalizeValue v)) :
    decodeJsonElems (l.map valueToJson) = .ok (l.map normalizeValue) := by
  induction l with
  | nil => simp [decodeJsonElems]
  | cons v vs ih =>
    have h1 : decodeJson (valueToJson v) = .ok (normalizeValue v) := h v (by simp)
    have h2 := ih (fun w hw => h w (by simp [hw]))
    simp only [List.map_cons, decodeJsonElems, h1, h2]

/-- Core round-trip: on the round-trippable fragment, decoding the encoded
document yields the original value with each map's entries in sorted-key
order (the Go map content is preserved exactly; association lists are the
model's rendering of iteration order). -/
theorem decodeJson_valueToJson (v : Value) (h : wfRT v = true) :
    decodeJson (valueToJson v) = .ok (normalizeValue v) := by
  revert h
  induction v using Value.indOn with
  | hstr s => intro _; simp [valueToJson, decodeJson, normalizeValue]
  | hlong n => intro _; simp [valueToJson, decodeJson, normalizeValue]
  | hdouble d =>
    intro hd
    have hf : d.frac ≠ 0 := by
      simpa [wfRT] using hd
    simp [valueToJson, decodeJson, normalizeValue, hf, canonFloat_fix d]
  | hbool b => intro _; simp [valueToJson, decodeJson, normalizeValue]
  | hdate t =>
    intro hd
    simp only [wfRT, Bool.and_eq_true, decide_eq_true_eq] at hd
    obtain ⟨⟨⟨⟨⟨hwf, hh⟩, hmi⟩, hse⟩, hns⟩, hoff⟩ := hd
    have hp := parseDate_formatDate t hwf
    have ht : (⟨t.year, t.month, t.day, 0, 0, 0, 0, 0⟩ : GoTime) = t := by
      cases t
      simp_all
    rw [ht] at hp
    simp [valueToJson, decodeJson, hp, normalizeValue]
  | htime t =>
    intro hd
    simp only [wfRT, Bool.and_eq_true, decide_eq_true_eq] at hd
    obtain ⟨hwf, hoff⟩ := hd
    have hp := parseTs_formatTs t hwf
    have ht : (⟨t.year, t.month, t.day, t.hour, t.minute, t.second, t.nanosec, 0⟩ :
        GoTime) = t := by
      cases t
      simp_all
    rw [ht] at hp
    simp [valueToJson, decodeJson, hp, normalizeValue]
  | href id => intro _; simp [valueToJson, decodeJson, normalizeValue]
  | hset l ih =>
    intro hl
    have hl' : ∀ e ∈ l, wfRT e.2 = true :=
      (wfRTEntries_iff l).mp (by simpa [wfRT] using hl)
    have hpt : ∀ e ∈ l, decodeJson (valueToJson e.2) = .ok (normalizeValue e.2) :=
      fun e he => ih e he (hl' e he)
    have hdec := decodeJsonEntries_pointwise (sortEntries l)
      (fun e he => hpt e ((sortEntries_perm l).subset he))
    simp only [valueToJson, entriesToJson_eq, sortEntries_map valueToJson l]
    simp only [decodeJson, hdec]
    simp [normalizeValue, normalizeEntries_eq, sortEntries_map normalizeValue l]
  | hobj l ih =>
    intro hl
    have hl' : ∀ e ∈ l, wfRT e.2 = true :=
      (wfRTEntries_iff l).mp (by simpa [wfRT] using hl)
    have hpt : ∀ e ∈ l, decodeJson (valueToJson e.2) = .ok (normalizeValue e.2) :=
      fun e he => ih e he (hl' e he)
    have hdec := decodeJsonEntries_pointwise (sortEntries l)
      (fun e he => hpt e ((sortEntries_perm l).subset he))
    simp only [valueToJson, entriesToJson_eq, sortEntries_map valueToJson l]
    simp only [decodeJson, hdec]
    simp [normalizeValue, normalizeEntries_eq, sortEntries_map normalizeValue l]
  | harr l ih =>
    intro hl
    have hl' : ∀ w ∈ l, wfRT w = true := (wfRTElems_iff l).mp (by simpa [wfRT] using hl)
    have hdec := decodeJsonElems_pointwise l (fun w hw => ih w hw (hl' w hw))
    simp only [valueToJson, elemsToJson_eq]
    simp [decodeJson, hdec, normalizeValue, normalizeElems_eq]
  | hnull => intro _; simp [valueToJson, decodeJson, normalizeValue]

/-! ## Facts about the rendered timestamp characters -/

theorem escapeChar_digit (d : Nat) (h : d < 10) :
    escapeChar (charOfDigit d) = [charOfDigit d] := by
  interval_cases d <;> decide

theorem charOfDigit_ne_dot (d : Nat) (h : d < 10) : charOfDigit d ≠ '.' := by
  interval_cases d <;> decide

theorem charOfDigit_ne_zeroChar (d : Nat) (h1 : d < 10) (h2 : d ≠ 0) :
    charOfDigit d ≠ '0' := by
  interval_cases d <;> simp_all <;> decide

theorem flatten_map_escape (cs : List Char) (h : ∀ c ∈ cs, escapeChar c = [c]) :
    (cs.map escapeChar).flatten = cs := by
  induction cs with
  | nil => rfl
  | cons c cs ih =>
    have hc := h c (by simp)
    simp only [List.map_cons, List.flatten_cons, hc]
    rw [ih (fun x hx => h x (by simp [hx]))]
    rfl

theorem quoteChars_of_safe (s : String) (h : ∀ c ∈ s.data, escapeChar c = [c]) :
    quoteChars s = '"' :: s.data ++ ['"'] := by
  unfold quoteChars
  rw [flatten_map_escape s.data h]

theorem fracChars_safe (n : Nat) : ∀ c ∈ fracChars n, escapeChar c = [c] := by
  unfold fracChars
  by_cases h0 : n = 0
  · simp [h0]
  · rw [if_neg h0, List.forall_mem_cons]
    refine ⟨by decide, ?_⟩
    intro c hcm
    simp only [List.mem_map] at hcm
    obtain ⟨d, hd, rfl⟩ := hcm
    exact escapeChar_digit d (digitsBE_mem_lt 9 n d (stripTrailing_mem _ d hd))

theorem tsChars_safe (t : GoTime) : ∀ c ∈ tsChars t, escapeChar c = [c] := by
  unfold tsChars dateChars
  simp only [List.forall_mem_append, List.forall_mem_cons, List.forall_mem_singleton,
    List.not_mem_nil, false_implies, implies_true, and_true]
  repeat' constructor
  all_goals first
    | decide
    | exact fracChars_safe t.nanosec
    | (intro c hcm
       simp only [List.mem_map] at hcm
       obtain ⟨d, hd, rfl⟩ := hcm
       exact escapeChar_digit d (digitsBE_mem_lt _ _ d hd))

theorem head?_dropWhile {α : Type} (p : α → Bool) (l : List α) :
    ∀ x, (l.dropWhile p).head? = some x → p x = false := by
  induction l with
  | nil => intro x hx; simp [List.dropWhile] at hx
  | cons a l ih =>
    intro x hx
    by_cases ha : p a = true
    · rw [List.dropWhile_cons, if_pos ha] at hx
      exact ih x hx
    · rw [List.dropWhile_cons, if_neg ha] at hx
      simp only [List.head?_cons, Option.some.injEq] at hx
      subst hx
      simpa using ha

theorem stripTrailing_getLast_ne (ds : List Nat) :
    ∀ x, (stripTrailing ds).getLast? = some x → x ≠ 0 := by
  intro x hx
  rw [stripTrailing, List.getLast?_reverse] at hx
  have := head?_dropWhile (fun d => d = 0) ds.reverse x hx
  simpa using this

theorem tsChars_no_dot (t : GoTime) (h0 : t.nanosec = 0) :
    ∀ c ∈ tsChars t, c ≠ '.' := by
  have hfrac : fracChars t.nanosec = [] := by simp [fracChars, h0]
  unfold tsChars dateChars
  rw [hfrac]
  simp only [List.nil_append, List.forall_mem_append, List.forall_mem_cons,
    List.forall_mem_singleton]
  repeat' constructor
  all_goals first
    | decide
    | (intro c hcm
       simp only [List.mem_map] at hcm
       obtain ⟨d, hd, rfl⟩ := hcm
       exact charOfDigit_ne_dot d (digitsBE_mem_lt _ _ d hd))

theorem preChars_no_dot (t : GoTime) :
    ∀ c ∈ dateChars t ++ 'T' :: (digitsBE 2 t.hour).map charOfDigit ++
      ':' :: (digitsBE 2 t.minute).map charOfDigit ++
      ':' :: (digitsBE 2 t.second).map charOfDigit, c ≠ '.' := by
  unfold dateChars
  simp only [List.forall_mem_append, List.forall_mem_cons]
  repeat' constructor
  all_goals first
    | decide
    | (intro c hcm
       simp only [List.mem_map] at hcm
       obtain ⟨d, hd, rfl⟩ := hcm
       exact charOfDigit_ne_dot d (digitsBE_mem_lt _ _ d hd))

/-! ## Claim C1 — Time encoding -/

/-- C1 counterexample: encoding the Time 2020-01-02T03:04:05 UTC with zero
nanoseconds produces `{"@ts":"2020-01-02T03:04:05Z"}` — the rendered
instant has no fractional digits at all (Go's ".999999999" layout drops
trailing zeros and the dot), refuting the claimed fixed nine-digit
fraction. -/
theorem c1_time_format_counterexample :
    marshalValue (.TimeV ⟨2020, 1, 2, 3, 4, 5, 0, 0⟩) =
      "\x7b\"@ts\":\"2020-01-02T03:04:05Z\"\x7d" ∧
    marshalValue (.TimeV ⟨2020, 1, 2, 3, 4, 5, 0, 0⟩) ≠
      "\x7b\"@ts\":\"2020-01-02T03:04:05.000000000Z\"\x7d" ∧
    '.' ∉ (formatTs ⟨2020, 1, 2, 3, 4, 5, 0, 0⟩).data :=
  ⟨by decide, by decide, by decide⟩

/-- C1 (amended): for every Time value (with in-range clock fields),
encoding produces the single-key JSON object `{"@ts": s}` where `s` is the
instant's wall-clock reading in the value's own location (not converted to
UTC — parsing `s` back yields the same wall-clock fields at offset 0)
suffixed by a literal `Z`, with the fractional seconds rendered to at most
nine digits with trailing zeros omitted and the dot omitted entirely when
the nanoseconds are zero. -/
theorem c1_time_format_amended (t : GoTime) (h : wfClock t) :
    ∃ s : String,
      valueToJson (.TimeV t) = .obj [("@ts", .str s)] ∧
      marshalValue (.TimeV t) =
        String.mk ('\x7b' :: '"' :: '@' :: 't' :: 's' :: '"' :: ':' :: '"' ::
          (s.data ++ ['"', '\x7d'])) ∧
      parseTs s =
        some ⟨t.year, t.month, t.day, t.hour, t.minute, t.second, t.nanosec, 0⟩ ∧
      (t.nanosec = 0 → '.' ∉ s.data) ∧
      (t.nanosec ≠ 0 → ∃ pre ds,
        s.data = pre ++ '.' :: ds.map charOfDigit ++ ['Z'] ∧ '.' ∉ pre ∧
        ds ≠ [] ∧ ds.length ≤ 9 ∧ ds.getLast? ≠ some 0 ∧
        valOfBE ds * 10 ^ (9 - ds.length) = t.nanosec) := by
  obtain ⟨hy, hmo1, hmo2, hd1, hd2, hh, hmi, hs, hns⟩ := h
  refine ⟨formatTs t, by simp [valueToJson], ?_,
    parseTs_formatTs t ⟨hy, hmo1, hmo2, hd1, hd2, hh, hmi, hs, hns⟩, ?_, ?_⟩
  · have hq : quoteChars (String.mk (tsChars t)) = '"' :: tsChars t ++ ['"'] :=
      quoteChars_of_safe (formatTs t) (tsChars_safe t)
    have hts : quoteChars "@ts" = ['"', '@', 't', 's', '"'] := by decide
    simp [marshalValue, valueToJson, renderJson, renderEntries, joinComma, hq, hts,
      formatTs, List.append_assoc]
  · intro h0 hm
    exact tsChars_no_dot t h0 '.' hm rfl
  · intro h0
    obtain ⟨hval, hlen1, hlen9⟩ :=
      stripTrailing_digitsBE 9 t.nanosec (Nat.pos_of_ne_zero h0) hns
    refine ⟨dateChars t ++ 'T' :: (digitsBE 2 t.hour).map charOfDigit ++
        ':' :: (digitsBE 2 t.minute).map charOfDigit ++
        ':' :: (digitsBE 2 t.second).map charOfDigit,
      stripTrailing (digitsBE 9 t.nanosec), ?_, ?_, ?_, hlen9, ?_, hval⟩
    · simp [formatTs, tsChars, fracChars, h0, List.append_assoc]
    · intro hm
      exact preChars_no_dot t '.' hm rfl
    · intro hnil
      rw [hnil] at hlen1
      simp at hlen1
    · intro hl
      exact stripTrailing_getLast_ne _ 0 hl rfl

/-- Witness for C1 (amended) at the concrete Time
2021-03-04T05:06:07.5 UTC. -/
theorem c1_time_format_witness :
    wfClock ⟨2021, 3, 4, 5, 6, 7, 500000000, 0⟩ ∧
    (∃ s : String,
      valueToJson (.TimeV ⟨2021, 3, 4, 5, 6, 7, 500000000, 0⟩) =
        .obj [("@ts", .str s)] ∧
      marshalValue (.TimeV ⟨2021, 3, 4, 5, 6, 7, 500000000, 0⟩) =
        String.mk ('\x7b' :: '"' :: '@' :: 't' :: 's' :: '"' :: ':' :: '"' ::
          (s.data ++ ['"', '\x7d'])) ∧
      parseTs s = some ⟨2021, 3, 4, 5, 6, 7, 500000000, 0⟩ ∧
      ((500000000 : Nat) = 0 → '.' ∉ s.data) ∧
      ((500000000 : Nat) ≠ 0 → ∃ pre ds,
        s.data = pre ++ '.' :: ds.map charOfDigit ++ ['Z'] ∧ '.' ∉ pre ∧
        ds ≠ [] ∧ ds.length ≤ 9 ∧ ds.getLast? ≠ some 0 ∧
        valOfBE ds * 10 ^ (9 - ds.length) = 500000000)) :=
  ⟨by decide, c1_time_format_amended ⟨2021, 3, 4, 5, 6, 7, 500000000, 0⟩ (by decide)⟩

/-! ## Claim C2 — encode/decode round trip -/

/-- C2 counterexample: the Double 3 (an integral float64) encodes as the
bare number literal `3`, which decodes as the Integer variant `LongV 3` —
not a value structurally equal to `DoubleV 3`.  The round trip fails on an
integral Double, so it does not hold for every value of every non-Object
variant. -/
theorem c2_roundtrip_counterexample :
    marshalValue (.DoubleV (intFloat 3)) = "3" ∧
    decodeJson (valueToJson (.DoubleV (intFloat 3))) = .ok (.LongV 3) ∧
    Value.LongV 3 ≠ .DoubleV (intFloat 3) := by
  refine ⟨by decide, ?_, fun h => Value.noConfusion h⟩
  simp [valueToJson, decodeJson, intFloat, GoFloat.mant, GoFloat.frac]

/-- C2 (amended): `decode(encode(v))` succeeds and returns `v` with each
map's entries in sorted-key order (the same Go map contents — association
lists model an iteration order), for every value in which Doubles are
fractional (integral Doubles decode as Integer), Times are UTC-normalized
with in-range clock fields, and Dates are UTC midnights; this covers the
claimed edge cases — empty Object, empty Array, negative Integer,
fractional Double, Time at nanosecond precision, Date at a month
boundary. -/
theorem c2_roundtrip_amended (v : Value) (h : wfRT v = true) :
    decodeJson (valueToJson v) = .ok (normalizeValue v) :=
  decodeJson_valueToJson v h

/-- Witness for C2 (amended) at a value exercising all claimed edge cases. -/
theorem c2_roundtrip_witness :
    wfRT (.ArrayV [.ObjectV [], .ArrayV [], .LongV (-5),
      .DoubleV (canonFloat 35 1), .TimeV ⟨2020, 1, 2, 3, 4, 5, 123456789, 0⟩,
      .DateV ⟨2020, 7, 1, 0, 0, 0, 0, 0⟩,
      .ObjectV [("name", .StringV "Bob"), ("age", .LongV 30)]]) = true ∧
    decodeJson (valueToJson (.ArrayV [.ObjectV [], .ArrayV [], .LongV (-5),
      .DoubleV (canonFloat 35 1), .TimeV ⟨2020, 1, 2, 3, 4, 5, 123456789, 0⟩,
      .DateV ⟨2020, 7, 1, 0, 0, 0, 0, 0⟩,
      .ObjectV [("name", .StringV "Bob"), ("age", .LongV 30)]])) =
      .ok (normalizeValue (.ArrayV [.ObjectV [], .ArrayV [], .LongV (-5),
        .DoubleV (canonFloat 35 1), .TimeV ⟨2020, 1, 2, 3, 4, 5, 123456789, 0⟩,
        .DateV ⟨2020, 7, 1, 0, 0, 0, 0, 0⟩,
        .ObjectV [("name", .StringV "Bob"), ("age", .LongV 30)]])) :=
  ⟨by decide, c2_roundtrip_amended _ (by decide)⟩

/-! ## Claims C3 and C9 — Null decoding -/

/-- C3 counterexample: decoding Null into a string destination currently
holding "x" succeeds with the destination still "x" — `NullV.Get` returns
nil without writing, so the destination is not left at its zero/empty
state. -/
theorem c3_null_zero_counterexample :
    decodeNative .NullV .sString (.nString "x") = .ok (.nString "x") ∧
    Native.nString "x" ≠ zeroOf .sString :=
  ⟨rfl, fun h => by simp [zeroOf] at h⟩

/-- C3 (amended): decoding Null into every destination shape succeeds
(never a DecodeError), and a destination in its zero/empty state is left at
that zero state (because the destination is left untouched). -/
theorem c3_null_absorbs_amended (sh : Shape) :
    decodeNative .NullV sh (zeroOf sh) = .ok (zeroOf sh) := rfl

/-- C9: `NullV.Get` (values.go line 151) returns success without writing:
for every destination shape and every current contents, decoding Null
returns the destination exactly as supplied — pre-populated contents are
kept, not reset. -/
theorem c9_null_get_frame (sh : Shape) (dest : Native) :
    decodeNative .NullV sh dest = .ok dest := rfl

/-! ## Claim C4 — Object encoding scenario -/

/-- C4 counterexample: `json.Marshal` emits map keys in sorted (byte)
order, so the scenario object's bytes are
`{"object":{"age":30,"name":"Bob"}}`, not the claimed
`{"object":{"name":"Bob","age":30}}`. -/
theorem c4_object_bytes_counterexample :
    marshalValue (.ObjectV [("name", .StringV "Bob"), ("age", .LongV 30)]) =
      "\x7b\"object\":\x7b\"age\":30,\"name\":\"Bob\"\x7d\x7d" ∧
    marshalValue (.ObjectV [("name", .StringV "Bob"), ("age", .LongV 30)]) ≠
      "\x7b\"object\":\x7b\"name\":\"Bob\",\"age\":30\x7d\x7d" :=
  ⟨by decide, by decide⟩

/-- C4 (amended): encoding wraps an Object's pointwise-encoded mapping
under the single key "object" (entries serialized in sorted key order); the
scenario object yields the bytes `{"object":{"age":30,"name":"Bob"}}`, and
decoding that document yields the Object variant with the two entries of
the matching variants. -/
theorem c4_object_encoding_amended :
    (∀ l : List (String × Value), ∃ m,
      valueToJson (.ObjectV l) = .obj [("object", .obj m)] ∧
      List.Perm m (l.map (fun e => (e.1, valueToJson e.2)))) ∧
    marshalValue (.ObjectV [("name", .StringV "Bob"), ("age", .LongV 30)]) =
      "\x7b\"object\":\x7b\"age\":30,\"name\":\"Bob\"\x7d\x7d" ∧
    decodeJson (valueToJson (.ObjectV [("name", .StringV "Bob"), ("age", .LongV 30)])) =
      .ok (.ObjectV [("age", .LongV 30), ("name", .StringV "Bob")]) := by
  refine ⟨fun l => ⟨sortEntries (entriesToJson l), by simp [valueToJson], ?_⟩,
    by decide, ?_⟩
  · exact entriesToJson_eq l ▸ sortEntries_perm (entriesToJson l)
  · have h := decodeJson_valueToJson
      (.ObjectV [("name", .StringV "Bob"), ("age", .LongV 30)]) (by decide)
    rw [h]
    rfl

/-! ## Claim C5 — the resource wrapper -/

/-- C5: for a successful response whose parsed body is a document of the
form `{"resource": <encoded-value>}`, `parseResponse` returns exactly the
decoded value found under the "resource" key (the wrapper is a plain
single-key object — "resource" is no reserved tag — and the field
extraction `At(ObjKey("resource"))` looks it up). -/
theorem c5_resource_extraction (j : Json) (v : Value)
    (h : decodeJson j = .ok v) :
    parseResponse (.obj [("resource", j)]) = .ok v := by
  have hdoc : decodeJson (.obj [("resource", j)]) = .ok (.ObjectV [("resource", v)]) := by
    simp [decodeJson, h]
  simp [parseResponse, hdoc, atPath, atStep, lookupKey]

/-- Witness for C5 at the concrete body `{"resource":"a"}`. -/
theorem c5_resource_extraction_witness :
    decodeJson (.str "a") = .ok (.StringV "a") ∧
    parseResponse (.obj [("resource", .str "a")]) = .ok (.StringV "a") :=
  ⟨by simp [decodeJson],
    c5_resource_extraction (.str "a") (.StringV "a") (by simp [decodeJson])⟩

/-! ## Claim C6 — numeric conversions -/

/-- C6: decoding an Integer variant into a float destination always
succeeds (widening); decoding a Double variant into an integer destination
succeeds exactly when the held float64 has no fractional component (its
canonical decimal has no fraction digits), and otherwise fails with the
precision-loss error. -/
theorem c6_numeric_conversions :
    (∀ (n : Int) (dest : Native),
      decodeNative (.LongV n) .sDouble dest = .ok (.nDouble (intFloat n))) ∧
    (∀ (d : GoFloat) (dest : Native),
      (d.frac = 0 → decodeNative (.DoubleV d) .sLong dest = .ok (.nLong d.mant)) ∧
      (d.frac ≠ 0 →
        decodeNative (.DoubleV d) .sLong dest = .error .precisionLoss)) := by
  refine ⟨fun n dest => rfl, fun d dest => ⟨fun h0 => ?_, fun h0 => ?_⟩⟩
  · simp [decodeNative, h0]
  · simp [decodeNative, h0]

/-- Witness for C6: widening 7, rejecting 3.5, accepting 3.0-as-3. -/
theorem c6_numeric_conversions_witness :
    decodeNative (.LongV 7) .sDouble (zeroOf .sDouble) = .ok (.nDouble (intFloat 7)) ∧
    ((canonFloat 35 1).frac ≠ 0 ∧
      decodeNative (.DoubleV (canonFloat 35 1)) .sLong (zeroOf .sLong) =
        .error .precisionLoss) ∧
    ((intFloat 3).frac = 0 ∧
      decodeNative (.DoubleV (intFloat 3)) .sLong (zeroOf .sLong) = .ok (.nLong 3)) :=
  ⟨c6_numeric_conversions.1 7 (zeroOf .sDouble),
    ⟨by decide, (c6_numeric_conversions.2 (canonFloat 35 1) (zeroOf .sLong)).2 (by decide)⟩,
    ⟨rfl, (c6_numeric_conversions.2 (intFloat 3) (zeroOf .sLong)).1 rfl⟩⟩

/-! ## Claim C7 — atomic container decoding -/

theorem decodeNativeElems_first_error (l : List Value) :
    ∀ (sh : Shape) (i : Nat) (e : DecodeError),
      (∀ j (_hlt : j < i) (hj : j < l.length),
        ∃ n, decodeNative (l.get ⟨j, hj⟩) sh (zeroOf sh) = .ok n) →
      ∀ (hi : i < l.length),
        decodeNative (l.get ⟨i, hi⟩) sh (zeroOf sh) = .error e →
        decodeNativeElems l sh = .error e := by
  induction l with
  | nil => intro sh i e _ hi; simp at hi
  | cons v vs ih =>
    intro sh i e hok hi herr
    cases i with
    | zero =>
      simp only [List.get] at herr
      simp [decodeNativeElems, herr]
    | succ i =>
      obtain ⟨n, hn⟩ := hok 0 (by omega) (by simp)
      simp only [List.get] at hn herr
      have htail := ih sh i e
        (fun j _hlt hj => hok (j + 1) (by omega) (by simpa using hj))
        (by simpa using hi) herr
      simp [decodeNativeElems, hn, htail]

theorem decodeNativeEntries_first_error (l : List (String × Value)) :
    ∀ (sh : Shape) (i : Nat) (e : DecodeError),
      (∀ j (_hlt : j < i) (hj : j < l.length),
        ∃ n, decodeNative (l.get ⟨j, hj⟩).2 sh (zeroOf sh) = .ok n) →
      ∀ (hi : i < l.length),
        decodeNative (l.get ⟨i, hi⟩).2 sh (zeroOf sh) = .error e →
        decodeNativeEntries l sh = .error e := by
  induction l with
  | nil => intro sh i e _ hi; simp at hi
  | cons kv vs ih =>
    obtain ⟨k, v⟩ := kv
    intro sh i e hok hi herr
    cases i with
    | zero =>
      simp only [List.get] at herr
      simp [decodeNativeEntries, herr]
    | succ i =>
      obtain ⟨n, hn⟩ := hok 0 (by omega) (by simp)
      simp only [List.get] at hn herr
      have htail := ih sh i e
        (fun j _hlt hj => hok (j + 1) (by omega) (by simpa using hj))
        (by simpa using hi) herr
      simp [decodeNativeEntries, hn, htail]

/-- C7: container decoding is atomic — for an Array decoded into a
sequence, or an Object decoded into a mapping, if the element at the first
failing index fails (every earlier element decoding successfully into its
fresh zero destination), the whole decode fails with exactly that
element's error; no result is returned, so the caller's destination is
never replaced by a partially populated one. -/
theorem c7_container_atomicity :
    (∀ (l : List Value) (sh : Shape) (dest : Native) (i : Nat) (e : DecodeError),
      (∀ j (_hlt : j < i) (hj : j < l.length),
        ∃ n, decodeNative (l.get ⟨j, hj⟩) sh (zeroOf sh) = .ok n) →
      ∀ (hi : i < l.length),
        decodeNative (l.get ⟨i, hi⟩) sh (zeroOf sh) = .error e →
        decodeNative (.ArrayV l) (.sSeq sh) dest = .error e) ∧
    (∀ (l : List (String × Value)) (sh : Shape) (dest : Native) (i : Nat)
        (e : DecodeError),
      (∀ j (_hlt : j < i) (hj : j < l.length),
        ∃ n, decodeNative (l.get ⟨j, hj⟩).2 sh (zeroOf sh) = .ok n) →
      ∀ (hi : i < l.length),
        decodeNative (l.get ⟨i, hi⟩).2 sh (zeroOf sh) = .error e →
        decodeNative (.ObjectV l) (.sMap sh) dest = .error e) := by
  constructor
  · intro l sh dest i e hok hi herr
    have h := decodeNativeElems_first_error l sh i e hok hi herr
    simp [decodeNative, h]
  · intro l sh dest i e hok hi herr
    have h := decodeNativeEntries_first_error l sh i e hok hi herr
    simp [decodeNative, h]

/-- Witness for C7: a five-element Array whose element at index 3 is
malformed for an integer sequence; the whole decode reports that element's
type-mismatch error. -/
theorem c7_container_atomicity_witness :
    decodeNative (.StringV "x") .sLong (zeroOf .sLong) =
      .error (.typeMismatch "int64" "StringV") ∧
    decodeNative
      (.ArrayV [.LongV 1, .LongV 2, .LongV 3, .StringV "x", .LongV 5])
      (.sSeq .sLong) (zeroOf (.sSeq .sLong)) =
      .error (.typeMismatch "int64" "StringV") :=
  ⟨rfl,
    c7_container_atomicity.1 [.LongV 1, .LongV 2, .LongV 3, .StringV "x", .LongV 5]
      .sLong (zeroOf (.sSeq .sLong)) 3 (.typeMismatch "int64" "StringV")
      (by intro j hlt hj
          interval_cases j
          · exact ⟨.nLong 1, rfl⟩
          · exact ⟨.nLong 2, rfl⟩
          · exact ⟨.nLong 3, rfl⟩)
      (by decide) rfl⟩

/-! ## Claim C8 — traversal on non-containers -/

/-- The two container variants of values.go; only their At methods look a
field up. -/
def isContainer : Value → Bool
  | .ObjectV _ => true
  | .ArrayV _ => true
  | _ => false

/-- C8: applying any (nonempty) field path to a value of any non-container
variant produces the "not transversable" TraversalError, never a resolved
value. -/
theorem c8_leaf_traversal (v : Value) (hv : isContainer v = false)
    (path : List FieldStep) (hp : path ≠ []) :
    atPath v path = .error .notTransversable := by
  cases path with
  | nil => exact absurd rfl hp
  | cons s rest =>
    have hstep : atStep v s = .error .notTransversable := by
      cases v <;> first
        | (cases s <;> rfl)
        | simp [isContainer] at hv
    simp [atPath, hstep]

/-- Witness for C8: the path `ObjKey("emails")` applied to a String. -/
theorem c8_leaf_traversal_witness :
    isContainer (.StringV "x") = false ∧
    ([FieldStep.objKey "emails"] ≠ ([] : List FieldStep)) ∧
    atPath (.StringV "x") [.objKey "emails"] = .error .notTransversable :=
  ⟨rfl, by simp, c8_leaf_traversal (.StringV "x") rfl [.objKey "emails"] (by simp)⟩

/-! ## Claim C10 — deterministic encoding -/

theorem valueToJson_normalize (v : Value) :
    valueToJson (normalizeValue v) = valueToJson v := by
  induction v using Value.indOn with
  | hstr s => simp [normalizeValue]
  | hlong n => simp [normalizeValue]
  | hdouble d => simp [normalizeValue]
  | hbool b => simp [normalizeValue]
  | hdate t => simp [normalizeValue]
  | htime t => simp [normalizeValue]
  | href id => simp [normalizeValue]
  | hnull => simp [normalizeValue]
  | harr l ih =>
    simp only [normalizeValue, valueToJson, elemsToJson_eq, normalizeElems_eq,
      List.map_map, Json.arr.injEq]
    apply List.map_congr_left
    intro w hw
    exact ih w hw
  | hset l ih =>
    simp only [normalizeValue, valueToJson, entriesToJson_eq, Json.obj.injEq,
      List.cons.injEq, Prod.mk.injEq, and_true, true_and]
    calc sortEntries ((sortEntries (normalizeEntries l)).map
          (fun e => (e.1, valueToJson e.2)))
        = sortEntries (sortEntries ((normalizeEntries l).map
            (fun e => (e.1, valueToJson e.2)))) := by rw [← sortEntries_map]
      _ = sortEntries ((normalizeEntries l).map (fun e => (e.1, valueToJson e.2))) :=
          sortEntries_idem _
      _ = sortEntries (l.map (fun e => (e.1, valueToJson e.2))) := by
          rw [normalizeEntries_eq, List.map_map]
          congr 1
          apply List.map_congr_left
          intro e he
          simp [ih e he]
  | hobj l ih =>
    simp only [normalizeValue, valueToJson, entriesToJson_eq, Json.obj.injEq,
      List.cons.injEq, Prod.mk.injEq, and_true, true_and]
    calc sortEntries ((sortEntries (normalizeEntries l)).map
          (fun e => (e.1, valueToJson e.2)))
        = sortEntries (sortEntries ((normalizeEntries l).map
            (fun e => (e.1, valueToJson e.2)))) := by rw [← sortEntries_map]
      _ = sortEntries ((normalizeEntries l).map (fun e => (e.1, valueToJson e.2))) :=
          sortEntries_idem _
      _ = sortEntries (l.map (fun e => (e.1, valueToJson e.2))) := by
          rw [normalizeEntries_eq, List.map_map]
          congr 1
          apply List.map_congr_left
          intro e he
          simp [ih e he]

/-- C10: encoding depends only on the map contents, not on iteration
order: two values with the same normal form (equal up to permutation of
each map's association entries — i.e. denoting the same Go maps) produce
identical output bytes, because object keys are serialized in sorted
order. -/
theorem c10_deterministic_encoding (u v : Value)
    (h : normalizeValue u = normalizeValue v) :
    marshalValue u = marshalValue v := by
  have hj : valueToJson u = valueToJson v := by
    rw [← valueToJson_normalize u, ← valueToJson_normalize v, h]
  simp [marshalValue, hj]

/-- Witness for C10: a SetRef whose parameter map (with a nested object)
is listed in two different orders encodes to the same bytes. -/
theorem c10_deterministic_encoding_witness :
    normalizeValue (.SetRefV [("b", .LongV 1),
        ("a", .ObjectV [("y", .NullV), ("x", .StringV "s")])]) =
      normalizeValue (.SetRefV [("a", .ObjectV [("x", .StringV "s"), ("y", .NullV)]),
        ("b", .LongV 1)]) ∧
    marshalValue (.SetRefV [("b", .LongV 1),
        ("a", .ObjectV [("y", .NullV), ("x", .StringV "s")])]) =
      marshalValue (.SetRefV [("a", .ObjectV [("x", .StringV "s"), ("y", .NullV)]),
        ("b", .LongV 1)]) :=
  ⟨rfl, c10_deterministic_encoding _ _ rfl⟩

end Fauna
